import Mathlib

set_option autoImplicit false
set_option maxHeartbeats 1000000
set_option maxRecDepth 8000

namespace Hearthcode

/-! # Shallow embedding of `src/Baseline/data/transition.py` (class `TransitionLoader`)

Python dictionaries are modelled as insertion-ordered association lists
(`alGet`, `alInsert`, `alPop` mirror lookup, assignment and `pop`), machine
floats as exact rationals (`Rat`; the facts proved about rewards concern
magnitude-level differences, independent of rounding), and fallible dictionary
or attribute access as `Option` (a `none` result models a raised
`KeyError`/`TypeError`).  The repository's `definition` package (`GAME_TAG`,
`TAG_ZONE`, `OPTION_TYPE`, `OPERABLE_GAME_TAG`) is imported by `transition.py`
but is absent from `src/`; its constants are modelled below from the spec as
concrete numeric ids (nothing proved depends on the particular values, only on
which ids are in `TransitionLoader.scope` / `TransitionLoader.zone`).  Tag
dictionary keys are decimal renderings of ints in the source and every use
round-trips them through `int`/`str`, so they are modelled as `Nat`; tag values
are modelled as `Int`. -/

namespace GAME_TAG

/-- Modelled from the spec: numeric id of `GAME_TAG.ENTITY_ID` (the
`definition` package is not under `src/`). -/
def ENTITY_ID : Nat := 53

/-- Modelled from the spec: numeric id of `GAME_TAG.HEALTH`. -/
def HEALTH : Nat := 45

/-- Modelled from the spec: numeric id of `GAME_TAG.ATK`. -/
def ATK : Nat := 47

/-- Modelled from the spec: numeric id of `GAME_TAG.COST`. -/
def COST : Nat := 48

/-- Modelled from the spec: numeric id of `GAME_TAG.ARMOR`. -/
def ARMOR : Nat := 292

/-- Modelled from the spec: numeric id of `GAME_TAG.ZONE`. -/
def ZONE : Nat := 49

/-- Modelled from the spec: numeric id of `GAME_TAG.CONTROLLER`. -/
def CONTROLLER : Nat := 50

/-- Modelled from the spec: numeric id of `GAME_TAG.CLASS`. -/
def CLASS : Nat := 199

/-- Modelled from the spec: numeric id of `GAME_TAG.CARDRACE`. -/
def CARDRACE : Nat := 200

/-- Modelled from the spec: numeric id of `GAME_TAG.CARDTYPE`. -/
def CARDTYPE : Nat := 202

/-- Modelled from the spec: numeric id of `GAME_TAG.SECRET`. -/
def SECRET : Nat := 219

/-- Modelled from the spec: numeric id of `GAME_TAG.ZONE_POSITION`. -/
def ZONE_POSITION : Nat := 263

end GAME_TAG

namespace TAG_ZONE

/-- Modelled from the spec: numeric value of `TAG_ZONE.SECRET`. -/
def SECRET : Int := 7

/-- Modelled from the spec: numeric value of `TAG_ZONE.HAND`. -/
def HAND : Int := 3

/-- Modelled from the spec: numeric value of `TAG_ZONE.PLAY`. -/
def PLAY : Int := 1

end TAG_ZONE

namespace OPTION_TYPE

/-- Modelled from the spec: numeric value of `OPTION_TYPE.END_TURN`. -/
def END_TURN : Int := 2

end OPTION_TYPE

namespace OPERABLE_GAME_TAG

/-- Modelled from the spec: numeric id of the `TAG_READY` marker tag that
`OPERABLE_GAME_TAG` adds beyond the plain `GAME_TAG` ids. -/
def TAG_READY : Nat := 30

end OPERABLE_GAME_TAG

/-- Modelled from the spec: the renaming map `OPERABLE_GAME_TAG()` used as
`str(self.tag_map[int(tag)])`, sending each numeric tag id to its display
name; ids outside the named set render as their decimal string. -/
def tag_map (t : Nat) : String :=
  if t = GAME_TAG.ENTITY_ID then "ENTITY_ID"
  else if t = GAME_TAG.HEALTH then "HEALTH"
  else if t = GAME_TAG.ATK then "ATK"
  else if t = GAME_TAG.COST then "COST"
  else if t = GAME_TAG.ARMOR then "ARMOR"
  else if t = GAME_TAG.ZONE then "ZONE"
  else if t = GAME_TAG.CONTROLLER then "CONTROLLER"
  else if t = GAME_TAG.CLASS then "CLASS"
  else if t = GAME_TAG.CARDRACE then "CARDRACE"
  else if t = GAME_TAG.CARDTYPE then "CARDTYPE"
  else if t = GAME_TAG.SECRET then "SECRET"
  else if t = GAME_TAG.ZONE_POSITION then "ZONE_POSITION"
  else if t = OPERABLE_GAME_TAG.TAG_READY then "TAG_READY"
  else toString t

/-! ## Python dictionaries as insertion-ordered association lists -/

section AList

variable {K V : Type} [DecidableEq K]

/-- Dictionary lookup `d[k]` (first entry with the key; Python dictionaries
never hold a key twice, so on well-formed data this is the unique entry). -/
def alGet : List (K × V) → K → Option V
  | (k2, v) :: rest, k => if k2 = k then some v else alGet rest k
  | [], _ => none

/-- Dictionary assignment `d[k] = v`: an existing key keeps its position and
gets the new value, a new key is appended at the end (Python insertion
order). -/
def alInsert : List (K × V) → K → V → List (K × V)
  | [], k, v => [(k, v)]
  | (k', v') :: rest, k, v =>
    if k' = k then (k', v) :: rest else (k', v') :: alInsert rest k v

/-- Dictionary removal `d.pop(k, None)`. -/
def alPop : List (K × V) → K → List (K × V)
  | [], _ => []
  | (k', v) :: rest, k => if k' = k then rest else (k', v) :: alPop rest k

/-- The key list of a dictionary, in insertion order (`list(d)`). -/
def alKeys (d : List (K × V)) : List K := d.map Prod.fst

end AList

/-- Left-to-right effectful map over `Option` (a raised exception aborts the
whole call): the semantics of a Python loop that transforms each element. -/
def mapOption {α β : Type} (f : α → Option β) : List α → Option (List β)
  | a :: as =>
    (f a).bind (fun b => (mapOption f as).bind (fun bs => some (b :: bs)))
  | [] => some []

/-- Left-to-right effectful fold over `Option`: the semantics of a Python
loop that updates an accumulator and can raise. -/
def foldOption {α β : Type} (f : β → α → Option β) : β → List α → Option β
  | b, [] => some b
  | b, a :: as => (f b a).bind (fun b2 => foldOption f b2 as)

/-- A tag dictionary of one entity: decimal tag-id keys modelled as `Nat`,
tag values modelled as `Int`. -/
abbrev Tags : Type := List (Nat × Int)

/-- One entity of a game state, as the JSON dictionary `transition.py`
manipulates.  Each field models the dictionary key of the same name; `none`
means the key is absent (so that access raises `KeyError`).  For `card_id`
the inner `Option` models a JSON `null` (Python `None`). -/
structure Entity where
  card_name : Option String
  card_description : Option String
  card_id : Option (Option String)
  tags : Option Tags
  named_tags : Option (List (String × Int))
deriving DecidableEq

/-- One element of an option list; the only field the code reads is
`int(item["entity"])`. -/
structure OptionItem where
  entity : Int
deriving DecidableEq

/-- One element of an action list; the only field `collate_sequence_data`
inspects is `int(action["type"])`. -/
structure ActionData where
  type : Int
deriving DecidableEq

/-- One loaded trajectory file: `metadata.result` together with the
`sequence.state` / `sequence.action` / `sequence.option` lists.  States and
options are opaque to `collate_sequence_data`, hence the type parameters. -/
structure TrajData (σ ω : Type) where
  result : Rat
  states : List σ
  actions : List ActionData
  options : List ω

namespace TransitionLoader

/-- `TransitionLoader.zone`: the `TAG_ZONE` values an entity may sit in and
survive the filter. -/
def zone : List Int := [TAG_ZONE.SECRET, TAG_ZONE.HAND, TAG_ZONE.PLAY]

/-- `TransitionLoader.scope`: the twelve `GAME_TAG` ids kept by the
stripping pass. -/
def scope : List Nat :=
  [GAME_TAG.ENTITY_ID, GAME_TAG.HEALTH, GAME_TAG.ATK, GAME_TAG.COST,
   GAME_TAG.ARMOR, GAME_TAG.ZONE, GAME_TAG.CONTROLLER, GAME_TAG.CLASS,
   GAME_TAG.CARDRACE, GAME_TAG.CARDTYPE, GAME_TAG.SECRET,
   GAME_TAG.ZONE_POSITION]

/-! ### `collate_sequence_data` -/

/-- Python `zip(a, b, c, d, e)`: truncates to the shortest list. -/
def zip5 {α β γ δ ε : Type} :
    List α → List β → List γ → List δ → List ε → List (α × β × γ × δ × ε)
  | a :: as, b :: bs, c :: cs, d :: ds, e :: es =>
    (a, b, c, d, e) :: zip5 as bs cs ds es
  | _, _, _, _, _ => []

/-- The five-way zip of `collate_sequence_data`:
`zip(state[:-1], action[:-1], state[1:], option[:-1], option[1:])`, pairing
each consecutive (state, action, option) with its successor state/option. -/
def pairs {σ ω : Type} (d : TrajData σ ω) :
    List (σ × ActionData × σ × ω × ω) :=
  zip5 d.states.dropLast d.actions.dropLast (d.states.drop 1)
    d.options.dropLast (d.options.drop 1)

/-- The loop body of `collate_sequence_data`: for each zipped pair compute
`reward = result * decay_factor`, square the decay factor
(`decay_factor *= decay_factor`), skip the pair when the action is
`END_TURN`, otherwise emit the transition tuple
`(state, action, deepcopy(next_state), reward, option, next_option)`
(the deep copy is value-equal, so it is the identity here). -/
def collateAux {σ ω : Type} (result decay : Rat) :
    List (σ × ActionData × σ × ω × ω) → List (σ × ActionData × σ × Rat × ω × ω)
  | [] => []
  | (s, a, ns, o, no) :: rest =>
    let reward := result * decay
    let decay2 := decay * decay
    if a.type = OPTION_TYPE.END_TURN then collateAux result decay2 rest
    else (s, a, ns, reward, o, no) :: collateAux result decay2 rest

/-- `TransitionLoader.collate_sequence_data`: initial decay factor `0.9`. -/
def collate_sequence_data {σ ω : Type} (d : TrajData σ ω) :
    List (σ × ActionData × σ × Rat × ω × ω) :=
  collateAux d.result (9 / 10) (pairs d)

/-! ### `preprocess_state` -/

/-- `operable = [int(item["entity"]) for item in option]`. -/
def operableOf (option : List OptionItem) : List Int :=
  option.map OptionItem.entity

/-- The removal condition of the filtering comprehension (lines 64-69), with
Python's left-to-right short-circuit evaluation: `len(entity["card_id"])` is
evaluated *before* the `is None` test, so a `None` `card_id` reaching it is a
`TypeError` (`none`); when `len` succeeds the `is None` disjunct is
necessarily false.  A `some true` result means the entity is dropped. -/
def removeCond (e : Entity) : Option Bool :=
  e.card_name.bind (fun name =>
    if name.length = 0 then some true
    else e.card_description.bind (fun desc =>
      if desc.length = 0 then some true
      else e.card_id.bind (fun cidVal =>
        cidVal.bind (fun cid =>
          if cid.length = 0 then some true
          else e.tags.bind (fun t =>
            match alGet t GAME_TAG.ZONE with
            | some z => some (decide (z ∉ zone))
            | none => some false)))))

/-- The filtering comprehension: keep (a deep copy of, hence a value equal
to) each entity whose removal condition is false, in order. -/
def filterState : List Entity → Option (List Entity)
  | [] => some []
  | e :: rest =>
    (removeCond e).bind (fun r =>
      (filterState rest).bind (fun rest2 =>
        some (if r then rest2 else e :: rest2)))

/-- One step of the tag loop (lines 74-80), processing one key of the
snapshot `list(entity["tags"])` against the current tag dictionary: a key
outside `scope` is popped when `strip`; the `ENTITY_ID` key of an operable
entity adds the `TAG_READY` marker with value `"1"` (modelled `1`). -/
def stripStep (operable : List Int) (strip : Bool) (t : Tags) (k : Nat) :
    Option Tags :=
  if k ∈ scope then
    if k = GAME_TAG.ENTITY_ID then
      (alGet t k).bind (fun v =>
        some (if v ∈ operable then alInsert t OPERABLE_GAME_TAG.TAG_READY 1 else t))
    else some t
  else some (if strip then alPop t k else t)

/-- One step of the renaming loop (lines 83-84): copy the binding of key `k`
of `t1` into the accumulator under the name `str(tag_map[int(k)])`. -/
def renameStep (t1 : Tags) (acc : List (String × Int)) (k : Nat) :
    Option (List (String × Int)) :=
  (alGet t1 k).bind (fun v => some (alInsert acc (tag_map k) v))

/-- The per-entity mutation loop (lines 70-85): pop `card_id` and
`card_name`; iterate over a snapshot of the tag keys, popping out-of-scope
tags when `strip` and marking operable entities with the `TAG_READY` tag;
then rebuild the dictionary as `named_tags` via `tag_map` and pop `tags`. -/
def transformEntity (operable : List Int) (strip : Bool) (e0 : Entity) :
    Option Entity :=
  let e1 : Entity := { e0 with card_id := none, card_name := none }
  e1.tags.bind (fun t0 =>
    (foldOption (stripStep operable strip) t0 (alKeys t0)).bind (fun t1 =>
      (foldOption (renameStep t1) ([] : List (String × Int)) (alKeys t1)).bind
        (fun nt => some { e1 with tags := none, named_tags := some nt })))

/-- `TransitionLoader.preprocess_state`. -/
def preprocess_state (state : List Entity) (option : List OptionItem)
    (strip : Bool) : Option (List Entity) :=
  (filterState state).bind (fun kept =>
    mapOption (transformEntity (operableOf option) strip) kept)

/-! ### `calculate_difference` -/

/-- Building `state_dict`: `{entity["tags"][str(ENTITY_ID)]: entity["tags"]
for entity in state}`, with the Python dict-comprehension semantics (a
repeated key keeps its first position and the last value). -/
def buildStateDictGo (acc : List (Int × Tags)) :
    List Entity → Option (List (Int × Tags))
  | [] => some acc
  | e :: rest =>
    e.tags.bind (fun t =>
      (alGet t GAME_TAG.ENTITY_ID).bind (fun id =>
        buildStateDictGo (alInsert acc id t) rest))

/-- `state_dict` of `calculate_difference`. -/
def buildStateDict (s : List Entity) : Option (List (Int × Tags)) :=
  buildStateDictGo [] s

/-- The inner key loop of `calculate_difference`: iterate over the keys of
the next entity's tags, copying each binding whose value is absent from or
different in the old entity's tags. -/
def diffGo (stags ntags : Tags) : List Nat → Tags → Tags
  | [], ed => ed
  | k :: ks, ed =>
    diffGo stags ntags ks
      (match alGet ntags k with
       | none => ed
       | some nv =>
         match alGet stags k with
         | some sv => if sv = nv then ed else alInsert ed k nv
         | none => alInsert ed k nv)

/-- The added/changed bindings of `ntags` relative to `stags`. -/
def diffTags (stags ntags : Tags) : Tags :=
  diffGo stags ntags (alKeys ntags) []

/-- The per-entity difference of the outer loop: against the old entity's
tags when the id is present in `state_dict`, the whole tag dictionary
otherwise. -/
def diffEntry : Option Tags → Tags → Tags
  | some stags, ntags => diffTags stags ntags
  | none, ntags => ntags

/-- The outer loop of `calculate_difference`: one pass over
`next_state_dict`; an entity absent from `state_dict` contributes all its
tags; a nonempty per-entity difference gets the `ENTITY_ID` binding set and
is appended. -/
def diffLoop (sd : List (Int × Tags)) : List (Int × Tags) → List Tags
  | [] => []
  | (id, ntags) :: rest =>
    if 0 < (diffEntry (alGet sd id) ntags).length then
      alInsert (diffEntry (alGet sd id) ntags) GAME_TAG.ENTITY_ID id ::
        diffLoop sd rest
    else diffLoop sd rest

/-- `TransitionLoader.calculate_difference`. -/
def calculate_difference (state next_state : List Entity) :
    Option (List Tags) :=
  (buildStateDict state).bind (fun sd =>
    (buildStateDict next_state).bind (fun nd => some (diffLoop sd nd)))

/-- The `difference=True` branch of `check_data`/`tokenize_data`
(lines 125-128 and 170-173): preprocess both states unstripped, then diff
them. -/
def difference_next_state (state next_state : List Entity)
    (option next_option : List OptionItem) : Option (List Tags) :=
  (preprocess_state next_state next_option false).bind (fun full_next_state =>
    (preprocess_state state option false).bind (fun full_state =>
      calculate_difference full_state full_next_state))

/-! ### `preprocess_state` with explicit aliasing (for the frame property) -/

/-- A store of entity objects; list positions are the references the state
list holds (Python object identity made explicit). -/
abbrev Store := List Entity

/-- The body of the mutation loop acting on the store: read the object at
reference `r`, apply the pops and tag updates, write the result back into
the same cell. -/
def heapTransformAt (operable : List Int) (strip : Bool) (st : Store)
    (r : Nat) : Option Store :=
  (st.get? r).bind (fun e =>
    (transformEntity operable strip e).bind (fun e2 => some (st.set r e2)))

/-- `preprocess_state` with Python aliasing made explicit: the state argument
is a list of references into a store of entity objects.  The comprehension's
`copy.deepcopy` allocates a fresh cell (at the end of the store) holding a
copy of each kept entity, and the mutation loop writes only to those fresh
cells; the option list is only read.  Returns the final store and the
references of the new list. -/
def preprocess_state_heap (store : Store) (refs : List Nat)
    (option : List OptionItem) (strip : Bool) : Option (Store × List Nat) :=
  (mapOption (fun r => store.get? r) refs).bind (fun ents =>
    (filterState ents).bind (fun kept =>
      (foldOption (heapTransformAt (operableOf option) strip) (store ++ kept)
        ((List.range kept.length).map (fun j => store.length + j))).bind
        (fun store2 =>
          some (store2, (List.range kept.length).map (fun j => store.length + j)))))

/-! ### `preprocess_input` -/

/-- The backslash character. -/
def bslash : Char := Char.ofNat 92

/-- The left-brace character. -/
def lbrace : Char := Char.ofNat 123

/-- The right-brace character. -/
def rbrace : Char := Char.ofNat 125

/-- The apostrophe character. -/
def apos : Char := Char.ofNat 39

/-- Lowercase hexadecimal digit, as Python's `json` emits in escapes. -/
def hexDigit (n : Nat) : Char :=
  if n < 10 then Char.ofNat (48 + n) else Char.ofNat (87 + n)

/-- Four lowercase hex digits of a (≤ 16-bit) code unit. -/
def hex4 (n : Nat) : List Char :=
  [hexDigit (n / 4096 % 16), hexDigit (n / 256 % 16),
   hexDigit (n / 16 % 16), hexDigit (n % 16)]

/-- A `\uXXXX` escape; code points beyond the basic plane become a UTF-16
surrogate pair, as Python's `json.dumps` emits with `ensure_ascii`. -/
def uEscape (n : Nat) : List Char :=
  if n ≤ 65535 then [bslash, 'u'] ++ hex4 n
  else
    let m := n - 65536
    [bslash, 'u'] ++ hex4 (55296 + m / 1024) ++
      [bslash, 'u'] ++ hex4 (56320 + m % 1024)

/-- Modelled from the spec: the string-character escaping of the standard
library's `json.dumps` with its default `ensure_ascii=True` (short escapes
for quote, backslash and common control characters; `\uXXXX` for every other
character outside printable ASCII). -/
def escChar (c : Char) : List Char :=
  if c = '"' then [bslash, '"']
  else if c = bslash then [bslash, bslash]
  else if c = Char.ofNat 10 then [bslash, 'n']
  else if c = Char.ofNat 9 then [bslash, 't']
  else if c = Char.ofNat 13 then [bslash, 'r']
  else if c = Char.ofNat 8 then [bslash, 'b']
  else if c = Char.ofNat 12 then [bslash, 'f']
  else if c.toNat < 32 ∨ 126 < c.toNat then uEscape c.toNat
  else [c]

/-- A JSON string literal as `json.dumps` renders it. -/
def dumpString (s : String) : List Char :=
  ['"'] ++ (s.data.map escChar).flatten ++ ['"']

/-- A JSON-serializable value (the argument of `preprocess_input`); JSON
numbers are modelled as integers, which covers every character the dump of a
number can produce. -/
inductive Json where
  | null
  | bool (b : Bool)
  | num (n : Int)
  | str (s : String)
  | arr (l : List Json)
  | obj (l : List (String × Json))

mutual

/-- Modelled from the spec: the standard library's
`json.dumps(item, separators=(',', ':'))` with default `ensure_ascii`. -/
def dumpJson : Json → List Char
  | .null => "null".data
  | .bool b => if b then "true".data else "false".data
  | .num n => (toString n).data
  | .str s => dumpString s
  | .arr l => ['['] ++ dumpArr l ++ [']']
  | .obj l => [lbrace] ++ dumpObj l ++ [rbrace]

/-- Array elements joined by the `','` separator. -/
def dumpArr : List Json → List Char
  | [] => []
  | [x] => dumpJson x
  | x :: y :: xs => dumpJson x ++ [','] ++ dumpArr (y :: xs)

/-- Object entries `key:value` joined by the `','` separator. -/
def dumpObj : List (String × Json) → List Char
  | [] => []
  | [(k, v)] => dumpString k ++ [':'] ++ dumpJson v
  | (k, v) :: p :: xs =>
    dumpString k ++ [':'] ++ dumpJson v ++ [','] ++ dumpObj (p :: xs)

end

/-- Python `str.replace(pat, repl)`: left-to-right, non-overlapping.  (The
source never calls it with an empty pattern; that case is the identity
here.) -/
def pyReplace : List Char → List Char → List Char → List Char
  | s, [], _ => s
  | [], _ :: _, _ => []
  | c :: rest, p :: ps, repl =>
    if (p :: ps).isPrefixOf (c :: rest) then
      repl ++ pyReplace ((c :: rest).drop (p :: ps).length) (p :: ps) repl
    else c :: pyReplace rest (p :: ps) repl
termination_by s _ _ => s.length
decreasing_by
  all_goals simp_all
  omega

/-- Scan for the closing `'>'` of a lazy `<.*?>` match: the segment up to the
first `'>'`, failing at end of input or at a newline (which `.` does not
match).  Returns the remainder after the `'>'`. -/
def findGt : List Char → Option (List Char)
  | [] => none
  | c :: rest =>
    if c = '>' then some rest
    else if c = Char.ofNat 10 then none
    else findGt rest

/-- Termination measure for `stripAngle`: a successful `findGt` consumes at
least the `'>'`. -/
theorem findGt_length {s r : List Char} (h : findGt s = some r) :
    r.length < s.length := by
  induction s with
  | nil => simp [findGt] at h
  | cons c rest ih =>
    by_cases h1 : c = '>'
    · simp only [findGt, h1, if_pos] at h
      obtain rfl := Option.some_inj.mp h
      simp
    · by_cases h2 : c = Char.ofNat 10
      · simp [findGt, h1, h2] at h
      · simp only [findGt, h1, h2, if_neg, if_false] at h
        have := ih h
        simp
        omega

/-- Modelled from the spec: `re.sub(r"<.*?>", "", ret)` — delete every
lazily-matched angle-bracket span. -/
def stripAngle : List Char → List Char
  | [] => []
  | c :: rest =>
    if c = '<' then
      match hg : findGt rest with
      | some rest2 => stripAngle rest2
      | none => c :: stripAngle rest
    else c :: stripAngle rest
termination_by s => s.length
decreasing_by
  · simp
    have := findGt_length hg
    omega
  · simp
  · simp

/-- The keyword list of `preprocess_input` (lines 96-109). -/
def keywords : List String :=
  ["entity", "type", "sub_options", "sub_option", "position", "targets",
   "target", "card_id", "card_name", "card_description", "named_tags", "tags"]

/-- The first removal loop (lines 91-94): delete every double quote, brace,
bracket and apostrophe, in the source's order. -/
def removePunct (l : List Char) : List Char :=
  pyReplace (pyReplace (pyReplace (pyReplace (pyReplace (pyReplace
    l ['"'] []) [lbrace] []) [rbrace] []) ['['] []) [']'] []) [apos] []

/-- The keyword loop (lines 110-111): delete every `keyword:`. -/
def removeKeywords (l : List Char) : List Char :=
  keywords.foldl (fun s kw => pyReplace s (kw.data ++ [':']) []) l

/-- Line 112: replace the remaining `':'` and `','` and every literal
backslash-n pair by a space. -/
def spaceSeparators (l : List Char) : List Char :=
  pyReplace (pyReplace (pyReplace l [':'] [' ']) [','] [' ']) [bslash, 'n'] [' ']

/-- `TransitionLoader.preprocess_input`: dump to JSON text, strip
punctuation and keywords, delete angle-bracket spans, lowercase. -/
def preprocess_input (item : Json) : String :=
  String.mk ((stripAngle (spaceSeparators (removeKeywords (removePunct
    (dumpJson item))))).map Char.toLower)

end TransitionLoader

/-! ## Derived notions used in the statements -/

/-- The eight characters claim C7 says never survive `preprocess_input`:
double quote, single quote, both braces, both brackets, colon, comma. -/
def bannedChars : List Char :=
  ['"', TransitionLoader.apos, TransitionLoader.lbrace,
   TransitionLoader.rbrace, '[', ']', ':', ',']

/-- The `ENTITY_ID` tag value of a raw entity, when its `tags` dictionary
and the binding exist. -/
def entityId (e : Entity) : Option Int :=
  e.tags.bind (fun t => alGet t GAME_TAG.ENTITY_ID)

/-- Total extractor of an entity's tag dictionary (meaningful on well-formed
entities, where `tags` is present). -/
def eTags (e : Entity) : Tags := e.tags.getD []

/-- Total extractor of an entity's `ENTITY_ID` value (meaningful on
well-formed entities). -/
def eId (e : Entity) : Int := (entityId e).getD 0

/-- The association list a successful `state_dict` build produces when the
entity ids are pairwise distinct. -/
def dictOf : List Entity → List (Int × Tags)
  | [] => []
  | e :: rest => (eId e, eTags e) :: dictOf rest

/-- A raw entity is representable Python data with an identity: it has a
`tags` dictionary (unique keys, as in every Python dict) containing an
`ENTITY_ID` binding. -/
def entityWfB (e : Entity) : Bool :=
  match e.tags with
  | some t => decide ((alKeys t).Nodup) && (alGet t GAME_TAG.ENTITY_ID).isSome
  | none => false

/-- The entity's `tags` dictionary, when present, has unique keys (true of
every Python dictionary). -/
def tagsNodupB (e : Entity) : Bool :=
  match e.tags with
  | some t => decide ((alKeys t).Nodup)
  | none => true

/-- The entity has a `tags` dictionary with an `ENTITY_ID` binding. -/
def hasIdB (e : Entity) : Bool := (entityId e).isSome

/-- The tag bindings of `ntags` that are added or changed relative to
`stags`, in the order of `ntags` (claim C3's wording). -/
def changedTags (stags ntags : Tags) : Tags :=
  ntags.filter (fun kv => !(decide (alGet stags kv.1 = some kv.2)))

/-- Claim C3's description, matched entity case: the entry of a next-state
entity whose id also occurs in the old state, given the old entity's tag
dictionary: its added/changed tags followed by its `ENTITY_ID` binding, or
no entry when nothing was added or changed. -/
def diffSpecOld (t2 : Tags) (id : Int) : Option Tags → Option Tags
  | none => none
  | some t =>
    if (changedTags t t2).isEmpty then none
    else some (changedTags t t2 ++ [(GAME_TAG.ENTITY_ID, id)])

/-- Claim C3's description, matching step: a next-state entity absent from
the old state (no entity with its `ENTITY_ID`) contributes all of its tags;
a matched one its added/changed tags plus `ENTITY_ID`. -/
def diffSpecFound (t2 : Tags) (id : Int) : Option Entity → Option Tags
  | none => some t2
  | some e => diffSpecOld t2 id e.tags

/-- Claim C3's description, per entity: match the next-state entity against
the old state by its `ENTITY_ID` value. -/
def diffSpecId (s : List Entity) (t2 : Tags) : Option Int → Option Tags
  | none => none
  | some id =>
    diffSpecFound t2 id (s.find? (fun e => decide (entityId e = some id)))

/-- Claim C3's description, per entity, from its tag dictionary. -/
def diffSpecEnt (s : List Entity) : Option Tags → Option Tags
  | none => none
  | some t2 => diffSpecId s t2 (alGet t2 GAME_TAG.ENTITY_ID)

/-- Claim C3's description of the diff: one entry per entity of the next
state that is new (all of its tags) or changed (its added/changed tags
followed by its `ENTITY_ID` binding); an entity of the old state absent from
the next state contributes nothing. -/
def diffSpec (s nexts : List Entity) : List Tags :=
  nexts.filterMap (fun e2 => diffSpecEnt s e2.tags)

/-- The keep-criterion exactly as claim C5 states it: nonempty `card_name`,
nonempty `card_description`, `card_id` nonempty and not `None`, and the
`ZONE` tag, when present, in `SECRET`/`HAND`/`PLAY`. -/
def keepSpecC5 (e : Entity) : Bool :=
  match e.card_name, e.card_description, e.card_id, e.tags with
  | some name, some desc, some (some cid), some t =>
    decide (name.length ≠ 0) && decide (desc.length ≠ 0) &&
      decide (cid.length ≠ 0) &&
      (match alGet t GAME_TAG.ZONE with
       | some z => decide (z ∈ TransitionLoader.zone)
       | none => true)
  | _, _, _, _ => false

/-! ## Concrete sample data -/

/-- A four-step trajectory with result `1` and no `END_TURN` action. -/
def trajC1 : TrajData Nat Nat :=
  ⟨1, [0, 1, 2, 3], [⟨3⟩, ⟨3⟩, ⟨3⟩, ⟨3⟩], [0, 1, 2, 3]⟩

/-- A two-step trajectory with result `1` and no `END_TURN` action, used to
instantiate `c1_amended`. -/
def trajW1 : TrajData Nat Nat := ⟨1, [10, 11], [⟨3⟩, ⟨3⟩], [20, 21]⟩

/-- A two-step trajectory whose single consecutive pair has an `END_TURN`
action. -/
def trajC4 : TrajData Nat Nat := ⟨1, [0, 1], [⟨2⟩, ⟨3⟩], [0, 1]⟩

/-- A trajectory whose first pair is `END_TURN` (skipped) and whose second
pair is retained, used to instantiate `c9_skip_and_position`. -/
def trajW9 : TrajData Nat Nat :=
  ⟨1, [10, 11, 12], [⟨2⟩, ⟨5⟩, ⟨5⟩], [20, 21, 22]⟩

/-- An ordinary entity that survives the filter: nonempty name, description
and id, one `ENTITY_ID` tag, no zone restriction. -/
def entC2 : Entity :=
  ⟨some "a", some "b", some (some "c"), some [(GAME_TAG.ENTITY_ID, 1)], none⟩

/-- An entity with nonempty name and description but `card_id = None`. -/
def entC5 : Entity := ⟨some "a", some "b", some none, some [], none⟩

/-- Old-state entity for the C3 witness: id 1, health 5. -/
def entC3s : Entity :=
  ⟨some "a", some "b", some (some "c"),
   some [(GAME_TAG.ENTITY_ID, 1), (GAME_TAG.HEALTH, 5)], none⟩

/-- Next-state entity for the C3 witness: id 1, health changed to 3. -/
def entC3a : Entity :=
  ⟨some "a", some "b", some (some "c"),
   some [(GAME_TAG.ENTITY_ID, 1), (GAME_TAG.HEALTH, 3)], none⟩

/-- Next-state entity for the C3 witness: id 2, new. -/
def entC3b : Entity :=
  ⟨some "x", some "y", some (some "z"),
   some [(GAME_TAG.ENTITY_ID, 2), (GAME_TAG.ATK, 4)], none⟩

/-- Input entity for the C6 witness: one in-scope tag, one out-of-scope tag,
operable. -/
def entW6 : Entity :=
  ⟨some "a", some "b", some (some "c"),
   some [(GAME_TAG.ENTITY_ID, 1), (999, 7)], none⟩

/-- The entity `preprocess_state` produces from `entW6` with `strip=True`
and the entity operable. -/
def entW6out : Entity :=
  ⟨none, some "b", none, none, some [("ENTITY_ID", 1), ("TAG_READY", 1)]⟩

/-- Entity for the C8 witness. -/
def entW8 : Entity :=
  ⟨some "a", some "b", some (some "c"),
   some [(GAME_TAG.ENTITY_ID, 5), (GAME_TAG.COST, 2)], none⟩

/-- Entity for the C10 witness. -/
def entW10 : Entity :=
  ⟨some "a", some "b", some (some "c"), some [(GAME_TAG.ENTITY_ID, 1)], none⟩

/-- The store after `preprocess_state_heap` on `[entW10]`: the original cell
untouched, one fresh cell holding the transformed copy. -/
def storeW10 : TransitionLoader.Store :=
  [entW10, ⟨none, some "b", none, none, some [("ENTITY_ID", 1)]⟩]

/-! # Theorems -/

/-! ## Association-list lemmas -/

section AListLemmas

variable {K V : Type} [DecidableEq K]

theorem alKeys_cons {kv : K × V} {l : List (K × V)} :
    alKeys (kv :: l) = kv.1 :: alKeys l := rfl

theorem mem_alKeys {l : List (K × V)} {x : K} :
    x ∈ alKeys l ↔ ∃ v, (x, v) ∈ l := by
  constructor
  · intro h
    obtain ⟨⟨a, b⟩, hm, he⟩ := List.mem_map.mp h
    exact ⟨b, he ▸ hm⟩
  · rintro ⟨v, hv⟩
    exact List.mem_map.mpr ⟨(x, v), hv, rfl⟩

theorem alGet_mem {l : List (K × V)} {k : K} {v : V} (h : alGet l k = some v) :
    (k, v) ∈ l := by
  induction l with
  | nil => simp [alGet] at h
  | cons kv rest ih =>
    obtain ⟨k', v'⟩ := kv
    by_cases hk : k' = k
    · subst hk
      rw [alGet, if_pos rfl] at h
      obtain rfl := Option.some_inj.mp h
      exact List.mem_cons_self _ _
    · rw [alGet, if_neg hk] at h
      exact List.mem_cons_of_mem _ (ih h)

theorem alGet_eq_none {l : List (K × V)} {k : K} :
    alGet l k = none ↔ k ∉ alKeys l := by
  induction l with
  | nil => simp [alGet, alKeys]
  | cons kv rest ih =>
    obtain ⟨k', v'⟩ := kv
    rw [alKeys_cons, List.mem_cons]
    by_cases hk : k' = k
    · subst hk
      rw [alGet, if_pos rfl]
      simp
    · rw [alGet, if_neg hk, ih]
      constructor
      · intro h hc
        rcases hc with h1 | h2
        · exact hk h1.symm
        · exact h h2
      · exact fun h hm => h (Or.inr hm)

theorem alGet_isSome_iff {l : List (K × V)} {k : K} :
    (alGet l k).isSome = true ↔ k ∈ alKeys l := by
  rcases h : alGet l k with _ | v
  · simpa using alGet_eq_none.mp h
  · simp only [Option.isSome_some, true_iff]
    exact mem_alKeys.mpr ⟨v, alGet_mem h⟩

theorem alGet_of_mem_nodup {l : List (K × V)} {k : K} {v : V}
    (hnd : (alKeys l).Nodup) (h : (k, v) ∈ l) : alGet l k = some v := by
  induction l with
  | nil => simp at h
  | cons kv rest ih =>
    obtain ⟨k', v'⟩ := kv
    rw [alKeys_cons, List.nodup_cons] at hnd
    rcases List.mem_cons.mp h with h1 | h2
    · cases h1
      rw [alGet, if_pos rfl]
    · have hk : k' ≠ k := by
        rintro rfl
        exact hnd.1 (mem_alKeys.mpr ⟨v, h2⟩)
      rw [alGet, if_neg hk]
      exact ih hnd.2 h2

theorem alKeys_alInsert {l : List (K × V)} {k : K} {v : V} :
    alKeys (alInsert l k v) =
      if k ∈ alKeys l then alKeys l else alKeys l ++ [k] := by
  induction l with
  | nil => simp [alInsert, alKeys]
  | cons kv rest ih =>
    obtain ⟨k', v'⟩ := kv
    by_cases hk : k' = k
    · subst hk
      rw [alInsert, if_pos rfl, alKeys_cons, alKeys_cons,
        if_pos (List.mem_cons_self _ _)]
    · rw [alInsert, if_neg hk, alKeys_cons, alKeys_cons, ih]
      by_cases hm : k ∈ alKeys rest
      · rw [if_pos hm, if_pos (List.mem_cons.mpr (Or.inr hm))]
      · have hno : k ∉ k' :: alKeys rest := by
          intro hc
          rcases List.mem_cons.mp hc with h1 | h2
          · exact hk h1.symm
          · exact hm h2
        rw [if_neg hm, if_neg hno, List.cons_append]

theorem mem_alKeys_alInsert {l : List (K × V)} {k x : K} {v : V}
    (h : x ∈ alKeys (alInsert l k v)) : x = k ∨ x ∈ alKeys l := by
  rw [alKeys_alInsert] at h
  by_cases hm : k ∈ alKeys l
  · rw [if_pos hm] at h
    exact Or.inr h
  · rw [if_neg hm] at h
    rcases List.mem_append.mp h with h1 | h2
    · exact Or.inr h1
    · simp at h2
      exact Or.inl h2

theorem alInsert_nodup {l : List (K × V)} {k : K} {v : V}
    (h : (alKeys l).Nodup) : (alKeys (alInsert l k v)).Nodup := by
  rw [alKeys_alInsert]
  by_cases hm : k ∈ alKeys l
  · rwa [if_pos hm]
  · rw [if_neg hm, List.nodup_append]
    refine ⟨h, List.nodup_singleton _, ?_⟩
    intro x hx hx2
    simp at hx2
    subst hx2
    exact hm hx

theorem alInsert_append {l : List (K × V)} {k : K} {v : V}
    (h : k ∉ alKeys l) : alInsert l k v = l ++ [(k, v)] := by
  induction l with
  | nil => rfl
  | cons kv rest ih =>
    obtain ⟨k', v'⟩ := kv
    rw [alKeys_cons, List.mem_cons] at h
    push_neg at h
    rw [alInsert, if_neg (fun he => h.1 he.symm), List.cons_append]
    congr 1
    exact ih h.2

theorem alInsert_self {l : List (K × V)} {k : K} {v : V}
    (h : alGet l k = some v) : alInsert l k v = l := by
  induction l with
  | nil => simp [alGet] at h
  | cons kv rest ih =>
    obtain ⟨k', v'⟩ := kv
    by_cases hk : k' = k
    · subst hk
      rw [alGet, if_pos rfl] at h
      obtain rfl := Option.some_inj.mp h
      rw [alInsert, if_pos rfl]
    · rw [alGet, if_neg hk] at h
      rw [alInsert, if_neg hk, ih h]

theorem alKeys_alPop_subset {l : List (K × V)} {k x : K}
    (h : x ∈ alKeys (alPop l k)) : x ∈ alKeys l := by
  induction l with
  | nil => simp [alPop, alKeys] at h
  | cons kv rest ih =>
    obtain ⟨k', v'⟩ := kv
    by_cases hk : k' = k
    · subst hk
      rw [alPop, if_pos rfl] at h
      rw [alKeys_cons, List.mem_cons]
      exact Or.inr h
    · rw [alPop, if_neg hk, alKeys_cons, List.mem_cons] at h
      rw [alKeys_cons, List.mem_cons]
      rcases h with h1 | h2
      · exact Or.inl h1
      · exact Or.inr (ih h2)

theorem not_mem_alKeys_alPop {l : List (K × V)} {k : K}
    (hnd : (alKeys l).Nodup) : k ∉ alKeys (alPop l k) := by
  induction l with
  | nil => simp [alPop, alKeys]
  | cons kv rest ih =>
    obtain ⟨k', v'⟩ := kv
    rw [alKeys_cons, List.nodup_cons] at hnd
    by_cases hk : k' = k
    · subst hk
      rw [alPop, if_pos rfl]
      exact hnd.1
    · rw [alPop, if_neg hk, alKeys_cons, List.mem_cons]
      push_neg
      exact ⟨fun he => hk he.symm, ih hnd.2⟩

theorem alPop_nodup {l : List (K × V)} {k : K}
    (hnd : (alKeys l).Nodup) : (alKeys (alPop l k)).Nodup := by
  induction l with
  | nil => simpa [alPop] using hnd
  | cons kv rest ih =>
    obtain ⟨k', v'⟩ := kv
    rw [alKeys_cons, List.nodup_cons] at hnd
    by_cases hk : k' = k
    · subst hk
      rw [alPop, if_pos rfl]
      exact hnd.2
    · rw [alPop, if_neg hk, alKeys_cons, List.nodup_cons]
      exact ⟨fun hm => hnd.1 (alKeys_alPop_subset hm), ih hnd.2⟩

end AListLemmas

/-! ## Closed form of `collate_sequence_data` -/

open TransitionLoader in
/-- Unrolling the collation loop: starting from decay factor `c ^ 2 ^ n`, the
pair at offset `n + j` contributes (unless skipped) the reward
`r * c ^ 2 ^ (n + j)`, because the loop squares the decay factor after every
pair, skipped or not. -/
theorem collateAux_closed {σ ω : Type} (r c : Rat)
    (l : List (σ × ActionData × σ × ω × ω)) :
    ∀ n : Nat, collateAux r (c ^ (2 ^ n)) l =
      (l.enumFrom n).filterMap (fun ip =>
        if ip.2.2.1.type = OPTION_TYPE.END_TURN then none
        else some (ip.2.1, ip.2.2.1, ip.2.2.2.1, r * c ^ (2 ^ ip.1),
          ip.2.2.2.2.1, ip.2.2.2.2.2)) := by
  induction l with
  | nil => intro n; rfl
  | cons p rest ih =>
    intro n
    obtain ⟨s, a, ns, o, no⟩ := p
    rw [List.enumFrom_cons, List.filterMap_cons]
    have hsq : c ^ (2 ^ n) * c ^ (2 ^ n) = c ^ (2 ^ (n + 1)) := by
      rw [← pow_add]
      congr 1
      omega
    by_cases ha : a.type = OPTION_TYPE.END_TURN <;>
      simp [collateAux, ha, hsq, ih (n + 1)]

open TransitionLoader in
/-- `collate_sequence_data` in closed form: one tuple per consecutive pair
whose action is not `END_TURN`, the pair at index `i` carrying reward
`result * (9/10) ^ 2 ^ i`. -/
theorem collate_closed {σ ω : Type} (d : TrajData σ ω) :
    collate_sequence_data d =
      (pairs d).enum.filterMap (fun ip =>
        if ip.2.2.1.type = OPTION_TYPE.END_TURN then none
        else some (ip.2.1, ip.2.2.1, ip.2.2.2.1, d.result * (9 / 10) ^ (2 ^ ip.1),
          ip.2.2.2.2.1, ip.2.2.2.2.2)) := by
  have h := collateAux_closed d.result (9 / 10) (pairs d) 0
  simpa [collate_sequence_data, List.enum] using h

/-! ## C1: reward decay -/

/-- Claim C1, counterexample: for the trajectory `trajC1` (result `1`, four
states, no `END_TURN`), the transition built from pair `i = 2` does not carry
the claimed reward `result * 0.9 ^ (i + 1) = 0.9 ^ 3`; the code squares the
decay factor at each step, so it carries `0.9 ^ 4` instead. -/
theorem c1_counterexample :
    ((TransitionLoader.collate_sequence_data trajC1).get? 2).map
        (fun t => t.2.2.2.1) ≠ some (trajC1.result * (9 / 10) ^ (2 + 1)) := by
  have h : (TransitionLoader.collate_sequence_data trajC1).get? 2 =
      some (2, ⟨3⟩, 3, 1 * (9 / 10 * (9 / 10) * (9 / 10 * (9 / 10))), 2, 3) := rfl
  rw [h]
  simp only [Option.map_some, Option.some_inj, trajC1]
  intro hc
  norm_num at hc

open TransitionLoader in
/-- Claim C1, amended: for every trajectory, the transition built from the
`i`-th consecutive (state, action, option) pair (0-based over the full
sequence) carries the reward `result * 0.9 ^ 2 ^ i` — the decay factor is
squared after every pair, so the exponent doubles per step instead of growing
by one. -/
theorem c1_amended {σ ω : Type} (d : TrajData σ ω) (i : Nat) (s : σ)
    (a : ActionData) (ns : σ) (o no : ω)
    (hp : (pairs d).get? i = some (s, a, ns, o, no))
    (ha : a.type ≠ OPTION_TYPE.END_TURN) :
    (s, a, ns, d.result * (9 / 10) ^ (2 ^ i), o, no) ∈ collate_sequence_data d := by
  rw [collate_closed]
  refine List.mem_filterMap.mpr ⟨(i, (s, a, ns, o, no)), ?_, ?_⟩
  · have hg : ((pairs d).enum).get? i = some (i, (s, a, ns, o, no)) := by
      rw [List.enum, List.get?_enumFrom, hp]
      simp
    exact List.get?_mem hg
  · simp [ha]

/-- Witness for `c1_amended` at the concrete trajectory `trajW1`, pair 0. -/
theorem c1_witness :
    ((10 : Nat), (⟨3⟩ : ActionData), (11 : Nat),
        trajW1.result * (9 / 10) ^ (2 ^ 0), (20 : Nat), (21 : Nat)) ∈
      TransitionLoader.collate_sequence_data trajW1 :=
  c1_amended trajW1 0 10 ⟨3⟩ 11 20 21 rfl (by decide)

/-! ## C4: one tuple per consecutive pair -/

/-- Claim C4, counterexample: `trajC4` holds `n = 2` states, actions and
options, but `collate_sequence_data` returns no tuple at all (its only
consecutive pair is an `END_TURN` pair and is skipped), not `n - 1 = 1`. -/
theorem c4_counterexample :
    trajC4.states.length = 2 ∧ trajC4.actions.length = 2 ∧
      trajC4.options.length = 2 ∧
      (TransitionLoader.collate_sequence_data trajC4).length ≠ 2 - 1 := by
  refine ⟨rfl, rfl, rfl, ?_⟩
  have h : TransitionLoader.collate_sequence_data trajC4 = [] := rfl
  rw [h]
  decide

open TransitionLoader in
/-- Claim C4, amended: `collate_sequence_data` returns one transition tuple
per consecutive (state, action, next-state, option, next-option) pair whose
action is not `END_TURN`, in order; the tuple built from the pair at index
`i` is `(state_i, action_i, state_(i+1), reward_i, option_i, option_(i+1))`
with `reward_i = result * 0.9 ^ 2 ^ i`. -/
theorem c4_amended {σ ω : Type} (d : TrajData σ ω) :
    collate_sequence_data d =
      (pairs d).enum.filterMap (fun ip =>
        if ip.2.2.1.type = OPTION_TYPE.END_TURN then none
        else some (ip.2.1, ip.2.2.1, ip.2.2.2.1, d.result * (9 / 10) ^ (2 ^ ip.1),
          ip.2.2.2.2.1, ip.2.2.2.2.2)) :=
  collate_closed d

/-! ## C9: `END_TURN` pairs are skipped but still advance the decay -/

open TransitionLoader in
/-- Claim C9: no tuple returned by `collate_sequence_data` comes from an
`END_TURN` pair, and every returned tuple is built from the pair at some
absolute index `i` of the full sequence with reward
`result * 0.9 ^ 2 ^ i` — the decay advances on skipped pairs too, so the
reward depends on the position in the full sequence, not on how many tuples
were retained before it. -/
theorem c9_skip_and_position {σ ω : Type} (d : TrajData σ ω) :
    (∀ t ∈ collate_sequence_data d, t.2.1.type ≠ OPTION_TYPE.END_TURN) ∧
      ∀ t ∈ collate_sequence_data d, ∃ i : Nat,
        (pairs d).get? i = some (t.1, t.2.1, t.2.2.1, t.2.2.2.2.1, t.2.2.2.2.2) ∧
          t.2.2.2.1 = d.result * (9 / 10) ^ (2 ^ i) := by
  constructor
  · intro t ht
    rw [collate_closed] at ht
    obtain ⟨ip, _, hf⟩ := List.mem_filterMap.mp ht
    by_cases ha : ip.2.2.1.type = OPTION_TYPE.END_TURN
    · simp [ha] at hf
    · simp only [ha, if_false, Option.some_inj] at hf
      subst hf
      simpa using ha
  · intro t ht
    rw [collate_closed] at ht
    obtain ⟨ip, hmem, hf⟩ := List.mem_filterMap.mp ht
    by_cases ha : ip.2.2.1.type = OPTION_TYPE.END_TURN
    · simp [ha] at hf
    · simp only [ha, if_false, Option.some_inj] at hf
      refine ⟨ip.1, ?_, ?_⟩
      · have hm0 : (ip.1, ip.2) ∈ List.enumFrom 0 (pairs d) := by
          simpa [List.enum] using hmem
        have h := List.mem_enumFrom hm0
        rw [List.get?_eq_getElem?]
        rw [List.getElem?_eq_getElem (by omega)]
        simp only [Nat.sub_zero] at h
        rw [← hf]
        simp [h.2.2]
      · rw [← hf]

/-- Witness for `c9_skip_and_position` at `trajW9`: the single retained tuple
is not an `END_TURN` tuple and carries the decay of absolute position 1. -/
theorem c9_witness :
    ((11 : Nat), (⟨5⟩ : ActionData), (12 : Nat),
        trajW9.result * (9 / 10 * (9 / 10)), (21 : Nat), (22 : Nat)).2.1.type ≠
        OPTION_TYPE.END_TURN ∧
      ∃ i : Nat, (TransitionLoader.pairs trajW9).get? i =
          some (11, ⟨5⟩, 12, 21, 22) ∧
          trajW9.result * (9 / 10 * (9 / 10)) =
            trajW9.result * (9 / 10) ^ (2 ^ i) := by
  have h := c9_skip_and_position trajW9
  have hm : ((11 : Nat), (⟨5⟩ : ActionData), (12 : Nat),
      trajW9.result * (9 / 10 * (9 / 10)), (21 : Nat), (22 : Nat)) ∈
      TransitionLoader.collate_sequence_data trajW9 := List.Mem.head _
  exact ⟨h.1 _ hm, h.2 _ hm⟩

/-! ## C2: the `difference=True` path -/

/-- Claim C2, evaluation at a failing input: `preprocess_state(-, -, False)`
pops the `"tags"` key of every returned entity (replacing it with
`named_tags`), so on a transition whose states hold the single entity
`entC2` the `difference=True` branch of `check_data`/`tokenize_data` raises
`KeyError` inside `calculate_difference` at the lookup `entity["tags"]`
(modelled by the `none` result), instead of returning the diff the claim
describes. -/
theorem c2_evaluation :
    TransitionLoader.preprocess_state [entC2] [] false =
        some [⟨none, some "b", none, none, some [("ENTITY_ID", 1)]⟩] ∧
      TransitionLoader.difference_next_state [entC2] [entC2] [] [] = none := by
  exact ⟨rfl, rfl⟩

/-! ## C5: the filtering criterion and the dead `is None` test -/

/-- Claim C5, evaluation at a failing input: the claim's criterion removes
`entC5` (its `card_id` is `None`), so `preprocess_state` should return the
empty state; the code instead evaluates `len(entity["card_id"])` before the
`is None` test and raises `TypeError` (modelled by `none`) — the `is None`
disjunct on line 67 is unreachable as written. -/
theorem c5_evaluation :
    keepSpecC5 entC5 = false ∧
      TransitionLoader.preprocess_state [entC5] [] true = none := by
  exact ⟨rfl, rfl⟩

/-! ## C8: the diff of a state with itself is empty -/

open TransitionLoader in
/-- A `state_dict` build succeeds on entities with an `ENTITY_ID` binding and
always has unique keys (it is a Python dict). -/
theorem buildStateDictGo_isSome_nodup (l : List Entity) :
    ∀ acc : List (Int × Tags), (∀ e ∈ l, hasIdB e = true) →
      (alKeys acc).Nodup →
      ∃ d, buildStateDictGo acc l = some d ∧ (alKeys d).Nodup := by
  induction l with
  | nil => exact fun acc _ hnd => ⟨acc, rfl, hnd⟩
  | cons e rest ih =>
    intro acc hall hnd
    have he := hall e (List.mem_cons_self _ _)
    rw [hasIdB] at he
    rcases ht : e.tags with _ | t
    · rw [entityId, ht] at he
      simp at he
    · rcases hid : alGet t GAME_TAG.ENTITY_ID with _ | id
      · rw [entityId, ht] at he
        simp [hid] at he
      · simp only [buildStateDictGo, ht, Option.some_bind, hid]
        exact ih (alInsert acc id t)
          (fun x hx => hall x (List.mem_cons_of_mem _ hx))
          (alInsert_nodup hnd)

open TransitionLoader in
/-- The inner key loop never copies anything when old and new tags are the
same dictionary. -/
theorem diffGo_self (t : Tags) : ∀ (ks : List Nat) (ed : Tags),
    diffGo t t ks ed = ed := by
  intro ks
  induction ks with
  | nil => exact fun ed => rfl
  | cons k ks ih =>
    intro ed
    rw [diffGo]
    rcases h : alGet t k with _ | v
    · simpa [h] using ih ed
    · simpa [h] using ih ed

open TransitionLoader in
/-- The outer loop of `calculate_difference` emits nothing when every entry
it visits is an entry of `state_dict` itself. -/
theorem diffLoop_self {d : List (Int × Tags)} (hnd : (alKeys d).Nodup) :
    ∀ rest : List (Int × Tags), (∀ en ∈ rest, en ∈ d) → diffLoop d rest = [] := by
  intro rest
  induction rest with
  | nil => exact fun _ => rfl
  | cons en rest ih =>
    intro hall
    obtain ⟨id, ntags⟩ := en
    have hget : alGet d id = some ntags :=
      alGet_of_mem_nodup hnd (hall _ (List.mem_cons_self _ _))
    rw [diffLoop]
    simp only [hget, diffEntry, diffTags, diffGo_self]
    rw [if_neg (by simp)]
    exact ih (fun x hx => hall x (List.mem_cons_of_mem _ hx))

/-- Claim C8: for every state whose entities carry a tag dictionary with an
`ENTITY_ID` binding, `calculate_difference(s, s)` returns the empty list. -/
theorem c8_self_diff_empty (s : List Entity) (h : s.all hasIdB = true) :
    TransitionLoader.calculate_difference s s = some [] := by
  have hall : ∀ e ∈ s, hasIdB e = true := by
    intro e he
    exact List.all_eq_true.mp h e he
  obtain ⟨d, hd, hnd⟩ :=
    buildStateDictGo_isSome_nodup s [] hall List.nodup_nil
  have hb : TransitionLoader.buildStateDict s = some d := hd
  simp only [TransitionLoader.calculate_difference, hb, Option.some_bind]
  rw [diffLoop_self hnd d (fun x hx => hx)]

/-- Witness for `c8_self_diff_empty` at the one-entity state `[entW8]`. -/
theorem c8_witness :
    TransitionLoader.calculate_difference [entW8] [entW8] = some [] :=
  c8_self_diff_empty [entW8] (by decide)

/-! ## C6: the stripped tag schema -/

/-- Inversion of `mapOption`: every output element is the image of an input
element. -/
theorem mapOption_mem {α β : Type} {f : α → Option β} :
    ∀ {l : List α} {out : List β}, mapOption f l = some out →
      ∀ b ∈ out, ∃ a ∈ l, f a = some b := by
  intro l
  induction l with
  | nil =>
    intro out h b hb
    obtain rfl := Option.some_inj.mp h
    simp at hb
  | cons a as ih =>
    intro out h b hb
    rw [mapOption] at h
    rcases hfa : f a with _ | b0
    · rw [hfa] at h
      simp at h
    · rw [hfa, Option.some_bind] at h
      rcases hrest : mapOption f as with _ | bs
      · rw [hrest] at h
        simp at h
      · rw [hrest, Option.some_bind] at h
        obtain rfl := Option.some_inj.mp h
        rcases List.mem_cons.mp hb with h1 | h2
        · exact ⟨a, List.mem_cons_self _ _, by rw [hfa, h1]⟩
        · obtain ⟨a2, ha2, hfa2⟩ := ih hrest b h2
          exact ⟨a2, List.mem_cons_of_mem _ ha2, hfa2⟩

open TransitionLoader in
/-- The filtering comprehension only keeps entities of its input. -/
theorem filterState_subset :
    ∀ {l kept : List Entity}, filterState l = some kept → ∀ e ∈ kept, e ∈ l := by
  intro l
  induction l with
  | nil =>
    intro kept h e he
    obtain rfl := Option.some_inj.mp h
    simp at he
  | cons e0 rest ih =>
    intro kept h e he
    rw [filterState] at h
    rcases hr : removeCond e0 with _ | r
    · rw [hr] at h
      simp at h
    · rw [hr, Option.some_bind] at h
      rcases hrest : filterState rest with _ | rest2
      · rw [hrest] at h
        simp at h
      · rw [hrest, Option.some_bind] at h
        obtain rfl := Option.some_inj.mp h
        cases r with
        | true =>
          rw [if_pos rfl] at he
          exact List.mem_cons_of_mem _ (ih hrest e he)
        | false =>
          rw [if_neg (by simp)] at he
          rcases List.mem_cons.mp he with h1 | h2
          · exact h1 ▸ List.mem_cons_self _ _
          · exact List.mem_cons_of_mem _ (ih hrest e h2)

open TransitionLoader in
/-- Inversion of the per-entity transformation: on success the result is the
input with `card_id`, `card_name` and `tags` popped and `named_tags` set to
the outcome of the two tag loops. -/
theorem transformEntity_inv {operable : List Int} {strip : Bool}
    {e0 e2 : Entity} (h : transformEntity operable strip e0 = some e2) :
    ∃ t0 t1 nt, e0.tags = some t0 ∧
      foldOption (stripStep operable strip) t0 (alKeys t0) = some t1 ∧
      foldOption (renameStep t1) [] (alKeys t1) = some nt ∧
      e2 = ⟨none, e0.card_description, none, none, some nt⟩ := by
  obtain ⟨cn, cd, ci, tg, ntg⟩ := e0
  simp only [transformEntity] at h
  rcases tg with _ | t0
  · simp at h
  · rw [Option.some_bind] at h
    rcases hf1 : foldOption (stripStep operable strip) t0 (alKeys t0) with _ | t1
    · rw [hf1] at h
      simp at h
    · rw [hf1, Option.some_bind] at h
      rcases hf2 : foldOption (renameStep t1) [] (alKeys t1) with _ | nt
      · rw [hf2] at h
        simp at h
      · rw [hf2, Option.some_bind] at h
        obtain rfl := Option.some_inj.mp h
        exact ⟨t0, t1, nt, rfl, hf1, hf2, rfl⟩

open TransitionLoader in
/-- Invariant of the stripping pass with `strip = True`: starting from a
dictionary with unique keys each of which is in scope, is the `TAG_READY`
marker, or is still pending in the snapshot, the final dictionary's keys are
all in scope or the `TAG_READY` marker. -/
theorem stripFold_scope (operable : List Int) :
    ∀ (ks : List Nat) (t t1 : Tags),
      (alKeys t).Nodup →
      (∀ k ∈ alKeys t, k ∈ scope ∨ k = OPERABLE_GAME_TAG.TAG_READY ∨ k ∈ ks) →
      foldOption (stripStep operable true) t ks = some t1 →
      ∀ k ∈ alKeys t1, k ∈ scope ∨ k = OPERABLE_GAME_TAG.TAG_READY := by
  intro ks
  induction ks with
  | nil =>
    intro t t1 _ hinv hf k hk
    obtain rfl := Option.some_inj.mp hf
    rcases hinv k hk with h1 | h2 | h3
    · exact Or.inl h1
    · exact Or.inr h2
    · simp at h3
  | cons k0 ks ih =>
    intro t t1 hnd hinv hf
    rw [foldOption] at hf
    by_cases hsc : k0 ∈ scope
    · by_cases hid : k0 = GAME_TAG.ENTITY_ID
      · rcases hv : alGet t k0 with _ | v
        · rw [stripStep, if_pos hsc, if_pos hid, hv] at hf
          simp at hf
        · rw [stripStep, if_pos hsc, if_pos hid, hv, Option.some_bind,
            Option.some_bind] at hf
          by_cases hop : v ∈ operable
          · rw [if_pos hop] at hf
            refine ih (alInsert t OPERABLE_GAME_TAG.TAG_READY 1) t1
              (alInsert_nodup hnd) ?_ hf
            intro k hk
            rcases mem_alKeys_alInsert hk with h1 | h2
            · exact Or.inr (Or.inl h1)
            · rcases hinv k h2 with ha | hb | hc
              · exact Or.inl ha
              · exact Or.inr (Or.inl hb)
              · rcases List.mem_cons.mp hc with hd | he
                · exact Or.inl (hd ▸ hsc)
                · exact Or.inr (Or.inr he)
          · rw [if_neg hop] at hf
            refine ih t t1 hnd ?_ hf
            intro k hk
            rcases hinv k hk with ha | hb | hc
            · exact Or.inl ha
            · exact Or.inr (Or.inl hb)
            · rcases List.mem_cons.mp hc with hd | he
              · exact Or.inl (hd ▸ hsc)
              · exact Or.inr (Or.inr he)
      · rw [stripStep, if_pos hsc, if_neg hid, Option.some_bind] at hf
        refine ih t t1 hnd ?_ hf
        intro k hk
        rcases hinv k hk with ha | hb | hc
        · exact Or.inl ha
        · exact Or.inr (Or.inl hb)
        · rcases List.mem_cons.mp hc with hd | he
          · exact Or.inl (hd ▸ hsc)
          · exact Or.inr (Or.inr he)
    · rw [stripStep, if_neg hsc, if_pos rfl, Option.some_bind] at hf
      refine ih (alPop t k0) t1 (alPop_nodup hnd) ?_ hf
      intro k hk
      rcases hinv k (alKeys_alPop_subset hk) with ha | hb | hc
      · exact Or.inl ha
      · exact Or.inr (Or.inl hb)
      · rcases List.mem_cons.mp hc with hd | he
        · exact absurd (hd ▸ hk) (not_mem_alKeys_alPop hnd)
        · exact Or.inr (Or.inr he)

open TransitionLoader in
/-- Every key of the rebuilt `named_tags` dictionary is the `tag_map` image
of a processed tag key. -/
theorem renameFold_keys (t1 : Tags) :
    ∀ (ks : List Nat) (acc nt : List (String × Int)),
      foldOption (renameStep t1) acc ks = some nt →
      ∀ x ∈ alKeys nt, x ∈ alKeys acc ∨ ∃ k ∈ ks, x = tag_map k := by
  intro ks
  induction ks with
  | nil =>
    intro acc nt hf x hx
    obtain rfl := Option.some_inj.mp hf
    exact Or.inl hx
  | cons k0 ks ih =>
    intro acc nt hf x hx
    rw [foldOption] at hf
    rcases hv : alGet t1 k0 with _ | v
    · rw [renameStep, hv] at hf
      simp at hf
    · rw [renameStep, hv, Option.some_bind, Option.some_bind] at hf
      rcases ih (alInsert acc (tag_map k0) v) nt hf x hx with h1 | ⟨k, hk, he⟩
      · rcases mem_alKeys_alInsert h1 with h2 | h3
        · exact Or.inr ⟨k0, List.mem_cons_self _ _, h2⟩
        · exact Or.inl h3
      · exact Or.inr ⟨k, List.mem_cons_of_mem _ hk, he⟩

open TransitionLoader in
/-- Claim C6: every entity returned by `preprocess_state` with `strip=True`
(on states whose tag dictionaries are Python dictionaries, i.e. have unique
keys) has no `card_id`, `card_name` or `tags` field, and its `named_tags`
keys are drawn from the `tag_map` renamings of the twelve `scope` tags plus
the `TAG_READY` marker. -/
theorem c6_strip_schema (state : List Entity) (option : List OptionItem)
    (out : List Entity) (hw : state.all tagsNodupB = true)
    (h : preprocess_state state option true = some out) :
    ∀ e ∈ out, e.card_id = none ∧ e.card_name = none ∧ e.tags = none ∧
      ∀ x ∈ alKeys (e.named_tags.getD []),
        x ∈ scope.map tag_map ∨ x = tag_map OPERABLE_GAME_TAG.TAG_READY := by
  intro e2 he2
  rw [preprocess_state] at h
  rcases hfs : filterState state with _ | kept
  · rw [hfs] at h
    simp at h
  · rw [hfs, Option.some_bind] at h
    obtain ⟨e0, he0, htr⟩ := mapOption_mem h e2 he2
    have he0s : e0 ∈ state := filterState_subset hfs e0 he0
    have hnd0 : tagsNodupB e0 = true := List.all_eq_true.mp hw e0 he0s
    obtain ⟨t0, t1, nt, ht0, hf1, hf2, rfl⟩ := transformEntity_inv htr
    refine ⟨rfl, rfl, rfl, ?_⟩
    intro x hx0
    have hx : x ∈ alKeys nt := hx0
    have hnd : (alKeys t0).Nodup := by
      rw [tagsNodupB, ht0] at hnd0
      simpa using hnd0
    have ht1keys := stripFold_scope (operableOf option) (alKeys t0) t0 t1 hnd
      (fun k hk => Or.inr (Or.inr hk)) hf1
    rcases renameFold_keys t1 (alKeys t1) [] nt hf2 x hx with h1 | ⟨k, hk, rfl⟩
    · simp [alKeys] at h1
    · rcases ht1keys k hk with hs | hr
      · exact Or.inl (List.mem_map.mpr ⟨k, hs, rfl⟩)
      · exact Or.inr (by rw [hr])

/-- Witness for `c6_strip_schema` at the one-entity state `[entW6]` with the
entity operable: the produced entity has the popped fields absent. -/
theorem c6_witness :
    entW6out.card_id = none ∧ entW6out.card_name = none ∧
      entW6out.tags = none := by
  have h := c6_strip_schema [entW6] [⟨1⟩] [entW6out] (by decide) rfl
    entW6out (List.Mem.head _)
  exact ⟨h.1, h.2.1, h.2.2.1⟩

/-! ## C10: `preprocess_state` does not mutate its arguments -/

open TransitionLoader in
/-- The mutation loop only writes to cells at references `≥ n` when all the
references it visits are `≥ n`. -/
theorem foldHeap_preserve (operable : List Int) (strip : Bool) :
    ∀ (rs : List Nat) (st st2 : Store) (n : Nat),
      (∀ r ∈ rs, n ≤ r) →
      foldOption (heapTransformAt operable strip) st rs = some st2 →
      ∀ i, i < n → st2.get? i = st.get? i := by
  intro rs
  induction rs with
  | nil =>
    intro st st2 n _ hf i hi
    obtain rfl := Option.some_inj.mp hf
    rfl
  | cons r rs ih =>
    intro st st2 n hall hf i hi
    rw [foldOption] at hf
    rcases he : st.get? r with _ | e
    · rw [heapTransformAt, he] at hf
      simp at hf
    · rcases ht : transformEntity operable strip e with _ | e2
      · rw [heapTransformAt, he, Option.some_bind, ht] at hf
        simp at hf
      · rw [heapTransformAt, he, Option.some_bind, ht, Option.some_bind,
          Option.some_bind] at hf
        have hstep := ih (st.set r e2) st2 n
          (fun x hx => hall x (List.mem_cons_of_mem _ hx)) hf i hi
        rw [hstep, List.get?_eq_getElem?, List.get?_eq_getElem?]
        exact List.getElem?_set_ne
          (by have := hall r (List.mem_cons_self _ _); omega)

open TransitionLoader in
/-- Claim C10: `preprocess_state` never mutates its arguments.  In the
aliasing-explicit embedding, every cell of the store reachable before the
call — in particular the state list's entity objects (the option list is
only read and holds no cells) — is unchanged on return: the comprehension
deep-copies each kept entity into a fresh cell and the pops and tag updates
write only to those fresh cells. -/
theorem c10_no_mutation (store : Store) (refs : List Nat)
    (option : List OptionItem) (strip : Bool) (store2 : Store)
    (newRefs : List Nat)
    (h : preprocess_state_heap store refs option strip = some (store2, newRefs)) :
    ∀ i, i < store.length → store2.get? i = store.get? i := by
  intro i hi
  rw [preprocess_state_heap] at h
  rcases hm : mapOption (fun r => store.get? r) refs with _ | ents
  · rw [hm] at h
    simp at h
  · rw [hm, Option.some_bind] at h
    rcases hfs : filterState ents with _ | kept
    · rw [hfs] at h
      simp at h
    · rw [hfs, Option.some_bind] at h
      rcases hfo : foldOption (heapTransformAt (operableOf option) strip)
          (store ++ kept)
          ((List.range kept.length).map (fun j => store.length + j)) with _ | stF
      · rw [hfo] at h
        simp at h
      · rw [hfo, Option.some_bind] at h
        have hp := Option.some_inj.mp h
        have h2 : stF = store2 := congrArg Prod.fst hp
        subst h2
        have hge : ∀ r ∈ (List.range kept.length).map
            (fun j => store.length + j), store.length ≤ r := by
          intro r hr
          obtain ⟨j, _, rfl⟩ := List.mem_map.mp hr
          omega
        have hpres := foldHeap_preserve (operableOf option) strip _
          (store ++ kept) stF store.length hge hfo i hi
        rw [hpres, List.get?_eq_getElem?, List.get?_eq_getElem?,
          List.getElem?_append, if_pos hi]

/-- Witness for `c10_no_mutation`: on the one-entity store `[entW10]`, the
original cell is unchanged by `preprocess_state_heap`. -/
theorem c10_witness :
    storeW10.get? 0 = ([entW10] : TransitionLoader.Store).get? 0 :=
  c10_no_mutation [entW10] [0] [] true storeW10 [1] rfl 0 (by decide)

/-! ## C3: characterization of `calculate_difference` -/

/-- Unpacking `entityWfB`: a `tags` dictionary with unique keys and an
`ENTITY_ID` binding, together with the values of the total extractors. -/
theorem entityWf_inv {e : Entity} (h : entityWfB e = true) :
    ∃ t id, e.tags = some t ∧ (alKeys t).Nodup ∧
      alGet t GAME_TAG.ENTITY_ID = some id ∧ entityId e = some id ∧
      eId e = id ∧ eTags e = t := by
  obtain ⟨cn, cd, ci, tg, ntg⟩ := e
  rcases tg with _ | t
  · simp [entityWfB] at h
  · simp only [entityWfB, Bool.and_eq_true, decide_eq_true_eq] at h
    rcases hid : alGet t GAME_TAG.ENTITY_ID with _ | id
    · rw [hid] at h
      simp at h
    · refine ⟨t, id, rfl, h.1, hid, ?_, ?_, rfl⟩
      · rw [entityId]
        simpa using hid
      · rw [eId, entityId]
        simp [hid]

open TransitionLoader in
/-- On well-formed entities with pairwise-distinct ids, the `state_dict`
build appends one entry per entity, in order. -/
theorem buildStateDictGo_eq :
    ∀ (l : List Entity) (acc : List (Int × Tags)),
      (∀ e ∈ l, entityWfB e = true) →
      (l.map entityId).Nodup →
      (∀ e ∈ l, eId e ∉ alKeys acc) →
      buildStateDictGo acc l = some (acc ++ dictOf l) := by
  intro l
  induction l with
  | nil =>
    intro acc _ _ _
    simp [dictOf, buildStateDictGo]
  | cons e rest ih =>
    intro acc hwf hnd hfresh
    obtain ⟨t, id, hts, hknd, hid, hEid, heid, hetags⟩ :=
      entityWf_inv (hwf e (List.mem_cons_self _ _))
    simp only [buildStateDictGo, hts, Option.some_bind, hid]
    have hidacc : id ∉ alKeys acc := heid ▸ hfresh e (List.mem_cons_self _ _)
    rw [alInsert_append hidacc]
    rw [List.map_cons, List.nodup_cons] at hnd
    have hstep := ih (acc ++ [(id, t)])
      (fun x hx => hwf x (List.mem_cons_of_mem _ hx)) hnd.2 ?_
    · rw [hstep, dictOf, heid, hetags, List.append_assoc]
      rfl
    · intro e2 he2 hmem
      have hwf2 := hwf e2 (List.mem_cons_of_mem _ he2)
      obtain ⟨t2, id2, _, _, _, hEid2, heid2, _⟩ := entityWf_inv hwf2
      rw [alKeys, List.map_append] at hmem
      rcases List.mem_append.mp hmem with h1 | h2
      · exact hfresh e2 (List.mem_cons_of_mem _ he2) h1
      · simp at h2
        apply hnd.1
        rw [List.mem_map]
        refine ⟨e2, he2, ?_⟩
        rw [hEid2, hEid]
        rw [heid2] at h2
        rw [h2]

open TransitionLoader in
/-- Lookup in `dictOf` is `find?` by `ENTITY_ID` over the entity list. -/
theorem alGet_dictOf :
    ∀ (s : List Entity), (∀ e ∈ s, entityWfB e = true) → ∀ id : Int,
      alGet (dictOf s) id =
        (s.find? (fun e => decide (entityId e = some id))).map eTags := by
  intro s
  induction s with
  | nil => intro _ id; rfl
  | cons e rest ih =>
    intro hwf id
    obtain ⟨t, id0, hts, hknd, hid0, hEid, heid, hetags⟩ :=
      entityWf_inv (hwf e (List.mem_cons_self _ _))
    rw [dictOf, List.find?_cons]
    by_cases hp : entityId e = some id
    · have hideq : eId e = id := by
        rw [hEid] at hp
        rw [heid]
        exact Option.some_inj.mp hp
      rw [alGet, if_pos hideq]
      simp [hp]
    · have hidne : eId e ≠ id := by
        intro hc
        apply hp
        rw [hEid]
        rw [heid] at hc
        rw [hc]
      rw [alGet, if_neg hidne]
      have hd : decide (entityId e = some id) = false := by
        simpa using hp
      rw [hd]
      exact ih (fun x hx => hwf x (List.mem_cons_of_mem _ hx)) id

/-- `filterMap` respects pointwise-equal functions. -/
theorem filterMap_congr_mem {α β : Type} {f g : α → Option β} :
    ∀ {l : List α}, (∀ a ∈ l, f a = g a) → l.filterMap f = l.filterMap g := by
  intro l
  induction l with
  | nil => intro _; rfl
  | cons a as ih =>
    intro h
    rw [List.filterMap_cons, List.filterMap_cons,
      h a (List.mem_cons_self _ _), ih (fun x hx => h x (List.mem_cons_of_mem _ hx))]

open TransitionLoader in
/-- The inner key loop appends exactly the added/changed bindings of the
keys it visits, provided those keys are distinct and fresh for the
accumulator. -/
theorem diffGo_append (stags ntags : Tags) :
    ∀ (ks : List Nat) (ed : Tags), ks.Nodup → (∀ k ∈ ks, k ∉ alKeys ed) →
      diffGo stags ntags ks ed =
        ed ++ ks.filterMap (fun k =>
          match alGet ntags k with
          | none => none
          | some nv => if alGet stags k = some nv then none else some (k, nv)) := by
  intro ks
  induction ks with
  | nil =>
    intro ed _ _
    simp [diffGo]
  | cons k ks ih =>
    intro ed hnd hfresh
    rw [List.nodup_cons] at hnd
    rw [diffGo, List.filterMap_cons]
    rcases hn : alGet ntags k with _ | nv
    · simp only [hn]
      exact ih ed hnd.2 (fun x hx => hfresh x (List.mem_cons_of_mem _ hx))
    · simp only [hn]
      rcases hs : alGet stags k with _ | sv
      · simp only [hs]
        have hkfresh : k ∉ alKeys ed := hfresh k (List.mem_cons_self _ _)
        rw [ih (alInsert ed k nv) hnd.2 ?_, alInsert_append hkfresh,
          List.append_assoc]
        · rfl
        · intro x hx hmem
          rcases mem_alKeys_alInsert hmem with h1 | h2
          · exact hnd.1 (h1 ▸ hx)
          · exact hfresh x (List.mem_cons_of_mem _ hx) h2
      · simp only [hs]
        by_cases hv : sv = nv
        · subst hv
          rw [if_pos rfl, if_pos rfl]
          exact ih ed hnd.2 (fun x hx => hfresh x (List.mem_cons_of_mem _ hx))
        · rw [if_neg hv, if_neg (fun hc => hv (Option.some_inj.mp hc))]
          have hkfresh : k ∉ alKeys ed := hfresh k (List.mem_cons_self _ _)
          rw [ih (alInsert ed k nv) hnd.2 ?_, alInsert_append hkfresh,
            List.append_assoc]
          · rfl
          · intro x hx hmem
            rcases mem_alKeys_alInsert hmem with h1 | h2
            · exact hnd.1 (h1 ▸ hx)
            · exact hfresh x (List.mem_cons_of_mem _ hx) h2

open TransitionLoader in
/-- Iterating the keys of a unique-key dictionary with lookups is the same
as filtering its entries. -/
theorem filterMap_keys_changed (stags : Tags) :
    ∀ ntags : Tags, (alKeys ntags).Nodup →
      ((alKeys ntags).filterMap (fun k =>
        match alGet ntags k with
        | none => none
        | some nv => if alGet stags k = some nv then none else some (k, nv))) =
      changedTags stags ntags := by
  intro ntags
  induction ntags with
  | nil => intro _; rfl
  | cons kv rest ih =>
    intro hnd
    obtain ⟨k, v⟩ := kv
    rw [alKeys_cons] at hnd ⊢
    rw [List.nodup_cons] at hnd
    rw [List.filterMap_cons]
    have hget : alGet ((k, v) :: rest) k = some v := by
      rw [alGet, if_pos rfl]
    have hcongr : ((alKeys rest).filterMap (fun x =>
        match alGet ((k, v) :: rest) x with
        | none => none
        | some nv => if alGet stags x = some nv then none else some (x, nv))) =
        ((alKeys rest).filterMap (fun x =>
        match alGet rest x with
        | none => none
        | some nv => if alGet stags x = some nv then none else some (x, nv))) := by
      apply filterMap_congr_mem
      intro x hx
      have hxk : k ≠ x := fun hc => hnd.1 (hc ▸ hx)
      rw [alGet, if_neg hxk]
    rw [changedTags, List.filter_cons]
    simp only [hget]
    by_cases hs : alGet stags k = some v
    · rw [if_pos hs]
      have : (!decide (alGet stags (k, v).1 = some (k, v).2)) = false := by
        simpa using hs
      rw [this, if_neg (by simp)]
      rw [hcongr, ih hnd.2]
      rfl
    · rw [if_neg hs]
      have : (!decide (alGet stags (k, v).1 = some (k, v).2)) = true := by
        simpa using hs
      rw [this, if_pos rfl]
      rw [hcongr, ih hnd.2]
      rfl

open TransitionLoader in
/-- On a unique-key dictionary, the inner key loop computes exactly the
added/changed bindings. -/
theorem diffTags_changed {stags ntags : Tags} (hnd : (alKeys ntags).Nodup) :
    diffTags stags ntags = changedTags stags ntags := by
  rw [diffTags, diffGo_append stags ntags (alKeys ntags) []
    (by simpa [alKeys] using hnd) (by simp [alKeys])]
  rw [List.nil_append]
  exact filterMap_keys_changed stags ntags hnd

/-- When both dictionaries carry the same `ENTITY_ID` value, that key never
appears among the changed bindings. -/
theorem EID_not_in_changed {stags ntags : Tags} {id : Int}
    (hnd : (alKeys ntags).Nodup)
    (hs : alGet stags GAME_TAG.ENTITY_ID = some id)
    (hn : alGet ntags GAME_TAG.ENTITY_ID = some id) :
    GAME_TAG.ENTITY_ID ∉ alKeys (changedTags stags ntags) := by
  intro hmem
  obtain ⟨v, hv⟩ := mem_alKeys.mp hmem
  rw [changedTags] at hv
  have hv2 := List.mem_filter.mp hv
  have hget : alGet ntags GAME_TAG.ENTITY_ID = some v :=
    alGet_of_mem_nodup hnd hv2.1
  have hveq : v = id := by
    rw [hget] at hn
    exact Option.some_inj.mp hn
  subst hveq
  have := hv2.2
  rw [hs] at this
  simp at this

open TransitionLoader in
/-- The outer loop of `calculate_difference` over well-formed states is
exactly the claimed per-entity diff. -/
theorem diffLoop_spec (s : List Entity) (hs : ∀ e ∈ s, entityWfB e = true) :
    ∀ nexts : List Entity, (∀ e ∈ nexts, entityWfB e = true) →
      diffLoop (dictOf s) (dictOf nexts) = diffSpec s nexts := by
  intro nexts
  induction nexts with
  | nil => intro _; rfl
  | cons e2 rest ih =>
    intro hwf
    obtain ⟨t2, id, ht2, hknd2, hid2, hEid2, heid2, hetags2⟩ :=
      entityWf_inv (hwf e2 (List.mem_cons_self _ _))
    have ihr := ih (fun x hx => hwf x (List.mem_cons_of_mem _ hx))
    have hdict := alGet_dictOf s hs id
    rw [dictOf, diffLoop, heid2, hetags2]
    rw [diffSpec, List.filterMap_cons, ht2, diffSpecEnt, hid2, diffSpecId]
    rw [diffSpec] at ihr
    rcases hfind : s.find? (fun e => decide (entityId e = some id)) with _ | ef
    · rw [hfind] at hdict
      have hga : alGet (dictOf s) id = none := by
        rw [hdict]
        rfl
      rw [hga, diffEntry, diffSpecFound]
      have hmem : (GAME_TAG.ENTITY_ID, id) ∈ t2 := alGet_mem hid2
      have hlen : 0 < t2.length := by
        cases t2
        · simp at hmem
        · simp
      rw [if_pos hlen, alInsert_self hid2, ihr]
    · rw [hfind] at hdict
      obtain ⟨t, idf, ht, hknd, hidf, hEidf, heidf, hetagsf⟩ :=
        entityWf_inv (hs ef (List.mem_of_find?_eq_some hfind))
      have hga : alGet (dictOf s) id = some t := by
        rw [hdict]
        exact congrArg some hetagsf
      rw [hga, diffEntry, diffSpecFound, ht, diffSpecOld]
      have hpred : entityId ef = some id := by
        have hpt := List.find?_some hfind
        simpa using hpt
      have hidef : alGet t GAME_TAG.ENTITY_ID = some id := by
        rw [entityId, ht] at hpred
        simpa using hpred
      rw [diffTags_changed hknd2]
      have hfresh : GAME_TAG.ENTITY_ID ∉ alKeys (changedTags t t2) :=
        EID_not_in_changed hknd2 hidef hid2
      rcases hch : changedTags t t2 with _ | ⟨cv, ch⟩
      · rw [ihr]
        simp
      · rw [hch] at hfresh
        rw [alInsert_append hfresh, ihr]
        simp

open TransitionLoader in
/-- Claim C3: on states of well-formed entities (a `tags` dictionary with
unique keys and an `ENTITY_ID` binding, as Python data always has) with
pairwise-distinct entity ids, `calculate_difference` returns exactly one
entry per entity of the next state that is new or changed — a new entity
contributes all its tags, a changed one its added/changed tags followed by
its `ENTITY_ID` — and entities of the old state absent from the next state
contribute nothing (`diffSpec` is that description, written from the
claim). -/
theorem c3_diff_characterization (s nexts : List Entity)
    (hs : s.all entityWfB = true) (hn : nexts.all entityWfB = true)
    (hids : (s.map entityId).Nodup) (hidn : (nexts.map entityId).Nodup) :
    TransitionLoader.calculate_difference s nexts = some (diffSpec s nexts) := by
  have hs2 : ∀ e ∈ s, entityWfB e = true :=
    fun e he => List.all_eq_true.mp hs e he
  have hn2 : ∀ e ∈ nexts, entityWfB e = true :=
    fun e he => List.all_eq_true.mp hn e he
  have hbs : TransitionLoader.buildStateDict s = some (dictOf s) := by
    have := buildStateDictGo_eq s [] hs2 hids (fun e _ => by simp [alKeys])
    simpa [TransitionLoader.buildStateDict] using this
  have hbn : TransitionLoader.buildStateDict nexts = some (dictOf nexts) := by
    have := buildStateDictGo_eq nexts [] hn2 hidn (fun e _ => by simp [alKeys])
    simpa [TransitionLoader.buildStateDict] using this
  rw [TransitionLoader.calculate_difference, hbs, Option.some_bind, hbn,
    Option.some_bind, diffLoop_spec s hs2 nexts hn2]

/-- Witness for `c3_diff_characterization` at a two-entity next state (one
changed entity, one new entity). -/
theorem c3_witness :
    TransitionLoader.calculate_difference [entC3s] [entC3a, entC3b] =
      some (diffSpec [entC3s] [entC3a, entC3b]) :=
  c3_diff_characterization [entC3s] [entC3a, entC3b]
    (by decide) (by decide) (by decide) (by decide)

/-! ## C7: `preprocess_input` output is lowercase and punctuation-free -/

open TransitionLoader in
/-- Every character of a `str.replace` result comes from the input or the
replacement. -/
theorem pyReplace_mem {s pat repl : List Char} {c : Char}
    (h : c ∈ pyReplace s pat repl) : c ∈ s ∨ c ∈ repl := by
  induction s, pat, repl using pyReplace.induct with
  | case1 s repl =>
    rw [pyReplace] at h
    exact Or.inl h
  | case2 p ps repl =>
    rw [pyReplace] at h
    simp at h
  | case3 d rest p ps repl hpre ih =>
    rw [pyReplace, if_pos hpre] at h
    rcases List.mem_append.mp h with h1 | h2
    · exact Or.inr h1
    · rcases ih h2 with h3 | h4
      · exact Or.inl (List.mem_of_mem_drop h3)
      · exact Or.inr h4
  | case4 d rest p ps repl hpre ih =>
    rw [pyReplace, if_neg hpre] at h
    rcases List.mem_cons.mp h with h1 | h2
    · exact Or.inl (h1 ▸ List.mem_cons_self _ _)
    · rcases ih h2 with h3 | h4
      · exact Or.inl (List.mem_cons_of_mem _ h3)
      · exact Or.inr h4

open TransitionLoader in
/-- `str.replace` introduces no character that was absent from both the
input and the replacement. -/
theorem pyReplace_not_mem {s pat repl : List Char} {c : Char}
    (h1 : c ∉ s) (h2 : c ∉ repl) : c ∉ pyReplace s pat repl :=
  fun hm => (pyReplace_mem hm).elim h1 h2

open TransitionLoader in
/-- Replacing a single character by something not containing it removes
every occurrence. -/
theorem pyReplace_single_not_mem (c : Char) (repl : List Char)
    (hr : c ∉ repl) : ∀ s : List Char, c ∉ pyReplace s [c] repl := by
  have main : ∀ n (s : List Char), s.length ≤ n → c ∉ pyReplace s [c] repl := by
    intro n
    induction n with
    | zero =>
      intro s hs
      obtain rfl := List.length_eq_zero.mp (Nat.le_zero.mp hs)
      rw [pyReplace]
      simp
    | succ n ih =>
      intro s hs
      match s with
      | [] =>
        rw [pyReplace]
        simp
      | d :: rest =>
        rw [pyReplace]
        by_cases hpre : ([c] : List Char).isPrefixOf (d :: rest)
        · rw [if_pos hpre]
          intro hmem
          rcases List.mem_append.mp hmem with h1 | h2
          · exact hr h1
          · have hd : (d :: rest).drop ([c] : List Char).length = rest := rfl
            rw [hd] at h2
            exact ih rest (by simp at hs; omega) h2
        · rw [if_neg hpre]
          intro hmem
          rcases List.mem_cons.mp hmem with h1 | h2
          · apply hpre
            subst h1
            simp [List.isPrefixOf]
          · exact ih rest (by simp at hs; omega) h2
  exact fun s => main s.length s le_rfl

open TransitionLoader in
/-- The keyword-removal loop introduces no character. -/
theorem keywordFold_not_mem {c : Char} :
    ∀ (kws : List String) (s : List Char), c ∉ s →
      c ∉ kws.foldl (fun s2 kw => pyReplace s2 (kw.data ++ [':']) []) s := by
  intro kws
  induction kws with
  | nil =>
    intro s h
    simpa using h
  | cons kw kws ih =>
    intro s h
    rw [List.foldl_cons]
    exact ih _ (pyReplace_not_mem h (by simp))

open TransitionLoader in
/-- Characters after the `'>'` found by `findGt` are characters of the
scanned list. -/
theorem findGt_mem : ∀ {s r : List Char}, findGt s = some r → ∀ c ∈ r, c ∈ s := by
  intro s
  induction s with
  | nil =>
    intro r h
    simp [findGt] at h
  | cons d rest ih =>
    intro r h c hc
    by_cases h1 : d = '>'
    · simp only [findGt, h1, if_pos] at h
      obtain rfl := Option.some_inj.mp h
      exact List.mem_cons_of_mem _ hc
    · by_cases h2 : d = Char.ofNat 10
      · simp [findGt, h1, h2] at h
      · simp only [findGt, h1, h2, if_neg, if_false] at h
        exact List.mem_cons_of_mem _ (ih h c hc)

open TransitionLoader in
/-- Unfolding `stripAngle` at a deleted span. -/
theorem stripAngle_cons_some {d : Char} {rest rest2 : List Char}
    (hd : d = '<') (hg : findGt rest = some rest2) :
    stripAngle (d :: rest) = stripAngle rest2 := by
  subst hd
  rw [stripAngle, if_pos rfl]
  split
  · next r2 heq =>
    rw [hg] at heq
    obtain rfl := Option.some_inj.mp heq
    rfl
  · next heq =>
    rw [hg] at heq
    exact absurd heq (by simp)

open TransitionLoader in
/-- Unfolding `stripAngle` at an unmatched `'<'`. -/
theorem stripAngle_cons_none {d : Char} {rest : List Char}
    (hd : d = '<') (hg : findGt rest = none) :
    stripAngle (d :: rest) = d :: stripAngle rest := by
  subst hd
  rw [stripAngle, if_pos rfl]
  split
  · next r2 heq =>
    rw [hg] at heq
    exact absurd heq (by simp)
  · rfl

open TransitionLoader in
/-- Unfolding `stripAngle` at an ordinary character. -/
theorem stripAngle_cons_other {d : Char} {rest : List Char} (hd : d ≠ '<') :
    stripAngle (d :: rest) = d :: stripAngle rest := by
  rw [stripAngle, if_neg hd]

open TransitionLoader in
/-- The regex deletion only deletes: every output character is an input
character. -/
theorem stripAngle_mem {c : Char} : ∀ s : List Char, c ∈ stripAngle s → c ∈ s := by
  have main : ∀ n (s : List Char), s.length ≤ n → c ∈ stripAngle s → c ∈ s := by
    intro n
    induction n with
    | zero =>
      intro s hs hc
      obtain rfl := List.length_eq_zero.mp (Nat.le_zero.mp hs)
      simpa [stripAngle] using hc
    | succ n ih =>
      intro s hs hc
      match s with
      | [] => simpa [stripAngle] using hc
      | d :: rest =>
        by_cases hd : d = '<'
        · rcases hg : findGt rest with _ | rest2
          · rw [stripAngle_cons_none hd hg] at hc
            rcases List.mem_cons.mp hc with h1 | h2
            · exact h1 ▸ List.mem_cons_self _ _
            · exact List.mem_cons_of_mem _ (ih rest (by simp at hs; omega) h2)
          · rw [stripAngle_cons_some hd hg] at hc
            have hlen := findGt_length hg
            have hmem := ih rest2 (by simp at hs; omega) hc
            exact List.mem_cons_of_mem _ (findGt_mem hg c hmem)
        · rw [stripAngle_cons_other hd] at hc
          rcases List.mem_cons.mp hc with h1 | h2
          · exact h1 ▸ List.mem_cons_self _ _
          · exact List.mem_cons_of_mem _ (ih rest (by simp at hs; omega) h2)
  exact fun s => main s.length s le_rfl

/-- `Char.ofNat` round-trips through `toNat` below the surrogate range. -/
theorem charOfNat_toNat (n : Nat) (h : n < 55296) : (Char.ofNat n).toNat = n := by
  have hv : n.isValidChar := Or.inl h
  rw [Char.ofNat, dif_pos hv]
  simp [Char.ofNatAux, Char.toNat, UInt32.toNat]

/-- `Char.toLower` either fixes a character that is not an uppercase ASCII
letter, or shifts an uppercase ASCII letter into `a`-`z`. -/
theorem toLower_toNat (c : Char) :
    (Char.toLower c = c ∧ ¬(65 ≤ c.toNat ∧ c.toNat ≤ 90)) ∨
      ((Char.toLower c).toNat = c.toNat + 32 ∧ 65 ≤ c.toNat ∧ c.toNat ≤ 90) := by
  unfold Char.toLower
  by_cases h : c.toNat ≥ 65 ∧ c.toNat ≤ 90
  · rw [if_pos h]
    right
    exact ⟨charOfNat_toNat _ (by omega), by omega, by omega⟩
  · rw [if_neg h]
    left
    exact ⟨rfl, by omega⟩

/-- `Char.toLower` is idempotent. -/
theorem toLower_fix (c : Char) :
    Char.toLower (Char.toLower c) = Char.toLower c := by
  rcases toLower_toNat c with ⟨h1, _⟩ | ⟨h1, h2, h3⟩
  · rw [h1]
    exact h1
  · rcases toLower_toNat (Char.toLower c) with ⟨h4, _⟩ | ⟨_, h5, h6⟩
    · exact h4
    · omega

/-- No lowercase ASCII letter is one of the eight banned characters. -/
theorem banned_not_lower {x : Char} (h1 : 97 ≤ x.toNat) (h2 : x.toNat ≤ 122) :
    x ∉ bannedChars := by
  intro hx
  simp only [bannedChars, TransitionLoader.apos, TransitionLoader.lbrace,
    TransitionLoader.rbrace, List.mem_cons, List.not_mem_nil, or_false] at hx
  rcases hx with rfl | rfl | rfl | rfl | rfl | rfl | rfl | rfl
  · exact absurd h1 (by decide)
  · exact absurd h1 (by decide)
  · exact absurd h2 (by decide)
  · exact absurd h2 (by decide)
  · exact absurd h1 (by decide)
  · exact absurd h1 (by decide)
  · exact absurd h1 (by decide)
  · exact absurd h1 (by decide)

open TransitionLoader in
/-- After `removePunct`, none of the six removed characters remains. -/
theorem removePunct_clean (l : List Char) :
    ('"' : Char) ∉ removePunct l ∧ lbrace ∉ removePunct l ∧
      rbrace ∉ removePunct l ∧ ('[' : Char) ∉ removePunct l ∧
      (']' : Char) ∉ removePunct l ∧ apos ∉ removePunct l := by
  rw [removePunct]
  refine ⟨?_, ?_, ?_, ?_, ?_, ?_⟩
  · exact pyReplace_not_mem (pyReplace_not_mem (pyReplace_not_mem
      (pyReplace_not_mem (pyReplace_not_mem
        (pyReplace_single_not_mem _ _ (by simp) l) (by simp)) (by simp))
      (by simp)) (by simp)) (by simp)
  · exact pyReplace_not_mem (pyReplace_not_mem (pyReplace_not_mem
      (pyReplace_not_mem (pyReplace_single_not_mem _ _ (by simp) _)
        (by simp)) (by simp)) (by simp)) (by simp)
  · exact pyReplace_not_mem (pyReplace_not_mem (pyReplace_not_mem
      (pyReplace_single_not_mem _ _ (by simp) _) (by simp)) (by simp)) (by simp)
  · exact pyReplace_not_mem (pyReplace_not_mem
      (pyReplace_single_not_mem _ _ (by simp) _) (by simp)) (by simp)
  · exact pyReplace_not_mem (pyReplace_single_not_mem _ _ (by simp) _) (by simp)
  · exact pyReplace_single_not_mem _ _ (by simp) _

open TransitionLoader in
/-- After `spaceSeparators`, no colon or comma remains, and any character
other than the space it inserts is preserved as absent. -/
theorem spaceSeparators_clean (l : List Char) :
    (':' : Char) ∉ spaceSeparators l ∧ (',' : Char) ∉ spaceSeparators l := by
  rw [spaceSeparators]
  constructor
  · exact pyReplace_not_mem (pyReplace_not_mem
      (pyReplace_single_not_mem _ _ (by simp) l) (by simp)) (by simp)
  · exact pyReplace_not_mem
      (pyReplace_single_not_mem _ _ (by simp) _) (by simp)

open TransitionLoader in
/-- `spaceSeparators` introduces only spaces. -/
theorem spaceSeparators_not_mem {c : Char} {l : List Char} (h : c ∉ l)
    (hsp : c ≠ ' ') : c ∉ spaceSeparators l := by
  rw [spaceSeparators]
  exact pyReplace_not_mem (pyReplace_not_mem (pyReplace_not_mem h
    (by simpa using hsp)) (by simpa using hsp)) (by simpa using hsp)

open TransitionLoader in
/-- Claim C7: for every JSON-serializable item, the string returned by
`preprocess_input` is entirely lowercase (each character is fixed by
lowercasing) and contains none of the eight characters double quote, single
quote, left/right brace, left/right bracket, colon, comma. -/
theorem c7_clean_output (item : Json) :
    (preprocess_input item).data.all
      (fun c => decide (Char.toLower c = c) && decide (c ∉ bannedChars)) = true := by
  rw [List.all_eq_true]
  intro c hc
  have hc2 : c ∈ (stripAngle (spaceSeparators (removeKeywords (removePunct
      (dumpJson item))))).map Char.toLower := hc
  obtain ⟨c0, hc0, rfl⟩ := List.mem_map.mp hc2
  have hnb : c0 ∉ bannedChars := by
    intro hb
    have hss : c0 ∈ spaceSeparators (removeKeywords (removePunct
        (dumpJson item))) := stripAngle_mem _ hc0
    have hrp := removePunct_clean (dumpJson item)
    have hsc := spaceSeparators_clean (removeKeywords (removePunct
      (dumpJson item)))
    simp only [bannedChars, List.mem_cons, List.not_mem_nil, or_false] at hb
    have hpunct : ∀ b : Char, b ∉ removePunct (dumpJson item) → b ≠ ' ' →
        b ∉ spaceSeparators (removeKeywords (removePunct (dumpJson item))) :=
      fun b hb1 hb2 =>
        spaceSeparators_not_mem (keywordFold_not_mem keywords _ hb1) hb2
    rcases hb with rfl | rfl | rfl | rfl | rfl | rfl | rfl | rfl
    · exact hpunct _ hrp.1 (by decide) hss
    · exact hpunct _ hrp.2.2.2.2.2 (by decide) hss
    · exact hpunct _ hrp.2.1 (by decide) hss
    · exact hpunct _ hrp.2.2.1 (by decide) hss
    · exact hpunct _ hrp.2.2.2.1 (by decide) hss
    · exact hpunct _ hrp.2.2.2.2.1 (by decide) hss
    · exact hsc.1 hss
    · exact hsc.2 hss
  simp only [Bool.and_eq_true, decide_eq_true_eq]
  refine ⟨toLower_fix c0, ?_⟩
  rcases toLower_toNat c0 with ⟨h1, _⟩ | ⟨h1, h2, h3⟩
  · rw [h1]
    exact hnb
  · exact banned_not_lower (by omega) (by omega)

end Hearthcode
